import Mathlib

/-!
Verification of the PDF comparison core (pdf_processor.py, document_comparator.py).

Python strings are modelled as lists of characters, Python floats as rationals,
and the filesystem/pdfplumber boundary as an abstract `PdfFile` value that either
fails to open/parse or yields a list of pages with optional extractable text.
The line-alignment primitive used by the comparator, `difflib.SequenceMatcher`
(constructed as `SequenceMatcher(None, lines1, lines2)`, i.e. `isjunk = None`
and `autojunk = True`), is modelled faithfully, including the autojunk
"popular element" heuristic that activates when the second sequence has at
least 200 elements.
-/

namespace PDFComparator

/-! ## Python string primitives -/

abbrev Str := List Char

/-- Whitespace characters matched by Python's regex class \s and stripped by
    str.strip(): space, tab, newline, carriage return, vertical tab, form feed. -/
def isPySpace (c : Char) : Bool :=
  c = ' ' || c = '\t' || c = '\n' || c = '\r' || c = Char.ofNat 11 || c = Char.ofNat 12

mutual

/-- re.sub(r'\s+', ' ', text): every maximal run of whitespace characters
    (newlines included) becomes a single space. -/
def collapseWS : Str → Str
  | [] => []
  | c :: cs => if isPySpace c then ' ' :: skipWS cs else c :: collapseWS cs

/-- Skips the remainder of a whitespace run inside `collapseWS`. -/
def skipWS : Str → Str
  | [] => []
  | c :: cs => if isPySpace c then skipWS cs else c :: collapseWS cs

end

/-- Python str.split(sep) for a one-character separator: splits at every
    occurrence, keeping empty pieces; the empty string yields [""]. -/
def pySplit (sep : Char) : Str → List Str
  | [] => [[]]
  | c :: cs =>
    let rest := pySplit sep cs
    if c = sep then [] :: rest
    else
      match rest with
      | [] => [[c]]
      | l :: ls => (c :: l) :: ls

/-- Python str.strip(): removes leading and trailing whitespace. -/
def pyStrip (s : Str) : Str :=
  ((s.dropWhile isPySpace).reverse.dropWhile isPySpace).reverse

/-- Python sep.join(pieces) for a one-character separator. -/
def pyJoin (sep : Char) : List Str → Str
  | [] => []
  | [s] => s
  | s :: rest => s ++ sep :: pyJoin sep rest

/-! ## pdf_processor.py -/

/-- The accumulator loop of `_clean_text` that keeps at most one consecutive
    empty line (state `prevEmpty` mirrors the Python `prev_empty` flag). -/
def dropDupBlanks : Bool → List Str → List Str
  | _, [] => []
  | prevEmpty, l :: ls =>
    if l ≠ [] then l :: dropDupBlanks false ls
    else if ¬ prevEmpty then [] :: dropDupBlanks true ls
    else dropDupBlanks true ls

/-- PDFProcessor._clean_text: `re.sub(r'\s+', ' ', text)`, then strip each
    '\n'-split line, then collapse runs of empty lines, then join with '\n'. -/
def clean_text (text : Str) : Str :=
  if text = [] then []
  else
    let t := collapseWS text
    let lines := (pySplit '\n' t).map pyStrip
    pyJoin '\n' (dropDupBlanks false lines)

structure PageData where
  page : Nat
  text : Str
  lines : List Str
deriving DecidableEq, Repr

structure ExtractedDoc where
  full_text : Str
  pages : List PageData
  total_pages : Nat
  total_lines : Nat
  total_chars : Nat
deriving DecidableEq, Repr

/-- A PDF file as seen through pdfplumber: opening/parsing either raises with
    some message, or yields the pages, each with optional extractable text
    (`page.extract_text()` may return None). -/
inductive PdfFile where
  | corrupt (msg : Str)
  | ok (pages : List (Option Str))
deriving DecidableEq, Repr

/-- The page loop of `extract_text`: pages numbered from 1; a page whose text
    is None or empty (falsy in Python) contributes nothing. -/
def extractPages : Nat → List (Option Str) → List Str × List PageData
  | _, [] => ([], [])
  | n, p :: ps =>
    let rest := extractPages (n + 1) ps
    match p with
    | some t =>
      if t = [] then rest
      else
        let ct := clean_text t
        (ct :: rest.1, ⟨n, ct, pySplit '\n' ct⟩ :: rest.2)
    | none => rest

/-- PDFProcessor.extract_text: any failure is re-raised as
    "Error al procesar PDF: " plus the cause message. -/
def extract_text : PdfFile → Except Str ExtractedDoc
  | .corrupt msg => .error ("Error al procesar PDF: ".toList ++ msg)
  | .ok pages =>
    let r := extractPages 1 pages
    let full_text := pyJoin '\n' r.1
    .ok { full_text := full_text
          pages := r.2
          total_pages := pages.length
          total_lines := (pySplit '\n' full_text).length
          total_chars := full_text.length }

/-! ## difflib.SequenceMatcher (stdlib dependency of document_comparator.py)

Modelled generically over an element type with decidable equality; the
comparator instantiates it at `Str` (lines). -/

structure MatchTriple where
  a : Nat
  b : Nat
  size : Nat
deriving DecidableEq, Repr

section SeqMatcher

variable {α : Type} [DecidableEq α]

/-- The ascending list of positions of `x` in `b` (one b2j entry). -/
def indicesOf (b : List α) (x : α) : List Nat :=
  (List.range b.length).filter (fun j => b[j]? = some x)

/-- SequenceMatcher.__chain_b with isjunk = None, autojunk = True: an element
    is "popular" — and its b2j entry deleted — when len(b) >= 200 and it
    occupies more than 1% of b (strictly more than len(b)//100 + 1 positions). -/
def b2j (b : List α) (x : α) : List Nat :=
  let idxs := indicesOf b x
  if 200 ≤ b.length ∧ b.length / 100 + 1 < idxs.length then [] else idxs

/-- Equality test of two optional elements that never identifies two
    out-of-range accesses (those are unreachable in the real algorithm). -/
def eqSome : Option α → Option α → Bool
  | some x, some y => decide (x = y)
  | _, _ => false

/-- Inner loop of find_longest_match over the candidate positions of a[i] in b,
    in ascending order: `continue` when j < blo, `break` when j >= bhi,
    otherwise newj2len[j] = j2len.get(j-1, 0) + 1 and the running best match is
    updated when strictly longer.  (Python's j-1 at j = 0 looks up key -1,
    which is absent, hence the explicit j = 0 case.) -/
def innerLoop (i blo bhi : Nat) (j2len : Nat → Nat) :
    List Nat → (Nat → Nat) → MatchTriple → (Nat → Nat) × MatchTriple
  | [], nw, best => (nw, best)
  | j :: js, nw, best =>
    if j < blo then innerLoop i blo bhi j2len js nw best
    else if bhi ≤ j then (nw, best)
    else
      let k := (if j = 0 then 0 else j2len (j - 1)) + 1
      let nw' : Nat → Nat := fun j' => if j' = j then k else nw j'
      let best' := if best.size < k then ⟨i + 1 - k, j + 1 - k, k⟩ else best
      innerLoop i blo bhi j2len js nw' best'

/-- Outer loop of find_longest_match over the rows alo..ahi-1; the j2len
    dictionary of the previous row is replaced by the fresh one each row. -/
def dpLoop (a : List α) (b2jf : α → List Nat) (blo bhi : Nat) :
    List Nat → (Nat → Nat) → MatchTriple → (Nat → Nat) × MatchTriple
  | [], f, best => (f, best)
  | i :: is, f, best =>
    let js := match a[i]? with
      | some x => b2jf x
      | none => []
    let st := innerLoop i blo bhi f js (fun _ => 0) best
    dpLoop a b2jf blo bhi is st.1 st.2

/-- First extension loop of find_longest_match: grow the best match backwards
    while the preceding elements are equal (the junk set is empty since
    isjunk is None).  `fuel = m.a` always suffices: m.a decreases each step
    and the guard needs alo < m.a. -/
def extendBack (a b : List α) (alo blo : Nat) : Nat → MatchTriple → MatchTriple
  | 0, m => m
  | fuel + 1, m =>
    if alo < m.a ∧ blo < m.b ∧ eqSome a[m.a - 1]? b[m.b - 1]? then
      extendBack a b alo blo fuel ⟨m.a - 1, m.b - 1, m.size + 1⟩
    else m

/-- Second extension loop: grow the best match forwards while the following
    elements are equal.  `fuel = ahi` always suffices: m.a + m.size increases
    each step and the guard needs m.a + m.size < ahi. -/
def extendFwd (a b : List α) (ahi bhi : Nat) : Nat → MatchTriple → MatchTriple
  | 0, m => m
  | fuel + 1, m =>
    if m.a + m.size < ahi ∧ m.b + m.size < bhi ∧
        eqSome a[m.a + m.size]? b[m.b + m.size]? then
      extendFwd a b ahi bhi fuel ⟨m.a, m.b, m.size + 1⟩
    else m

/-- SequenceMatcher.find_longest_match on the window [alo,ahi) x [blo,bhi):
    dynamic programming pass, then backward and forward extension.  The two
    junk-extension loops of difflib are omitted: the junk set is empty
    (isjunk = None) so they never fire. -/
def findLongestMatch (a b : List α) (b2jf : α → List Nat)
    (alo ahi blo bhi : Nat) : MatchTriple :=
  let st := dpLoop a b2jf blo bhi (List.range' alo (ahi - alo))
    (fun _ => 0) ⟨alo, blo, 0⟩
  let m1 := extendBack a b alo blo st.2.a st.2
  extendFwd a b ahi bhi ahi m1

/-- The worklist of get_matching_blocks, in its equivalent recursive form:
    all blocks of the sub-window left of the chosen longest match, then the
    match, then the blocks right of it — which is exactly the sorted order
    difflib produces.  The fuel only bounds the recursion depth;
    (ahi - alo) + (bhi - blo) always suffices because every recursive window
    is strictly smaller in that measure. -/
def mbGo (a b : List α) (b2jf : α → List Nat) :
    Nat → Nat → Nat → Nat → Nat → List MatchTriple
  | 0, _, _, _, _ => []
  | fuel + 1, alo, ahi, blo, bhi =>
    let m := findLongestMatch a b b2jf alo ahi blo bhi
    if m.size = 0 then []
    else
      (if alo < m.a ∧ blo < m.b then mbGo a b b2jf fuel alo m.a blo m.b else [])
      ++ [m]
      ++ (if m.a + m.size < ahi ∧ m.b + m.size < bhi then
            mbGo a b b2jf fuel (m.a + m.size) ahi (m.b + m.size) bhi else [])

/-- Second phase of get_matching_blocks: merge adjacent matching blocks
    (the running block starts as the dummy (0,0,0)). -/
def nonAdjacent : MatchTriple → List MatchTriple → List MatchTriple
  | cur, [] => if cur.size ≠ 0 then [cur] else []
  | cur, m :: ms =>
    if cur.a + cur.size = m.a ∧ cur.b + cur.size = m.b then
      nonAdjacent ⟨cur.a, cur.b, cur.size + m.size⟩ ms
    else if cur.size ≠ 0 then cur :: nonAdjacent m ms
    else nonAdjacent m ms

/-- SequenceMatcher.get_matching_blocks: recursively collected blocks, merged,
    with the terminating sentinel (len(a), len(b), 0). -/
def get_matching_blocks (a b : List α) : List MatchTriple :=
  nonAdjacent ⟨0, 0, 0⟩
    (mbGo a b (b2j b) (a.length + b.length + 1) 0 a.length 0 b.length)
  ++ [⟨a.length, b.length, 0⟩]

inductive Tag where
  | equal
  | replace
  | delete
  | insert
deriving DecidableEq, Repr

structure Opcode where
  tag : Tag
  i1 : Nat
  i2 : Nat
  j1 : Nat
  j2 : Nat
deriving DecidableEq, Repr

/-- The loop of get_opcodes: before each matching block, a replace / delete /
    insert opcode for the non-matching gap (when nonempty), then an equal
    opcode for the block itself (when its size is nonzero). -/
def opcodesLoop : Nat → Nat → List MatchTriple → List Opcode
  | _, _, [] => []
  | i, j, m :: ms =>
    (if i < m.a ∧ j < m.b then [⟨.replace, i, m.a, j, m.b⟩]
     else if i < m.a then [⟨.delete, i, m.a, j, m.b⟩]
     else if j < m.b then [⟨.insert, i, m.a, j, m.b⟩]
     else [])
    ++ (if m.size ≠ 0 then [⟨.equal, m.a, m.a + m.size, m.b, m.b + m.size⟩] else [])
    ++ opcodesLoop (m.a + m.size) (m.b + m.size) ms

/-- SequenceMatcher.get_opcodes. -/
def get_opcodes (a b : List α) : List Opcode :=
  opcodesLoop 0 0 (get_matching_blocks a b)

/-- Total number of matched elements (sum of matching-block sizes; the
    sentinel contributes 0). -/
def matchesTotal (a b : List α) : Nat :=
  ((get_matching_blocks a b).map MatchTriple.size).sum

/-- SequenceMatcher.ratio(): 2.0 * matches / (len(a) + len(b)), and 1.0 when
    both sequences are empty (difflib._calculate_ratio); floats modelled as
    rationals. -/
def ratio (a b : List α) : ℚ :=
  if a.length + b.length = 0 then 1
  else 2 * (matchesTotal a b : ℚ) / ((a.length : ℚ) + (b.length : ℚ))

/-! ## document_comparator.py -/

/-- Python list slice l[i:j] (for the clamped, nonnegative indices the
    comparator produces). -/
def pySlice (l : List α) (i j : Nat) : List α := (l.drop i).take (j - i)

structure Context (α : Type) where
  before_doc1 : List α
  after_doc1 : List α
  before_doc2 : List α
  after_doc2 : List α
deriving DecidableEq, Repr

/-- DocumentComparator._get_context with the default context_size = 3:
    lines1[max(0, pos1-3):pos1], lines1[pos1:min(len(lines1), pos1+3)], and
    the same two windows over lines2 at pos2. -/
def get_context (lines1 lines2 : List α) (pos1 pos2 : Nat) : Context α :=
  { before_doc1 := pySlice lines1 (pos1 - 3) pos1
    after_doc1 := pySlice lines1 pos1 (min lines1.length (pos1 + 3))
    before_doc2 := pySlice lines2 (pos2 - 3) pos2
    after_doc2 := pySlice lines2 pos2 (min lines2.length (pos2 + 3)) }

inductive DiffRecord (α : Type) where
  | modified (position : Nat) (old_lines new_lines : List α) (context : Context α)
  | deleted (position : Nat) (lines : List α) (context : Context α)
  | added (position : Nat) (lines : List α) (context : Context α)
deriving DecidableEq, Repr

/-- DocumentComparator._get_differences: one record per non-equal opcode,
    in opcode order. -/
def get_differences (lines1 lines2 : List α) : List Opcode → List (DiffRecord α)
  | [] => []
  | op :: ops =>
    (match op.tag with
     | .replace => [.modified op.i1 (pySlice lines1 op.i1 op.i2)
         (pySlice lines2 op.j1 op.j2) (get_context lines1 lines2 op.i1 op.j1)]
     | .delete => [.deleted op.i1 (pySlice lines1 op.i1 op.i2)
         (get_context lines1 lines2 op.i1 op.i1)]
     | .insert => [.added op.j1 (pySlice lines2 op.j1 op.j2)
         (get_context lines1 lines2 op.i1 op.j1)]
     | .equal => [])
    ++ get_differences lines1 lines2 ops

def isAdded : DiffRecord α → Bool
  | .added _ _ _ => true
  | _ => false

def isDeleted : DiffRecord α → Bool
  | .deleted _ _ _ => true
  | _ => false

def isModified : DiffRecord α → Bool
  | .modified _ _ _ _ => true
  | _ => false

/-- len(d.get('lines', [])): the 'lines' field, absent on modified records. -/
def linesLen : DiffRecord α → Nat
  | .added _ ls _ => ls.length
  | .deleted _ ls _ => ls.length
  | .modified _ _ _ _ => 0

/-- len(d.get('lines',[])) + len(d.get('old_lines',[])) + len(d.get('new_lines',[])),
    as summed by _estimate_pages_changed. -/
def changedLines : DiffRecord α → Nat
  | .added _ ls _ => ls.length
  | .deleted _ ls _ => ls.length
  | .modified _ ol nl _ => ol.length + nl.length

structure Stats where
  total_differences : Nat
  added_sections : Nat
  deleted_sections : Nat
  modified_sections : Nat
  total_added_lines : Nat
  total_deleted_lines : Nat
  pages_changed : Nat
deriving DecidableEq, Repr

/-- DocumentComparator._estimate_pages_changed (Python floats as rationals;
    int() truncates, which is the floor here since nothing is negative). -/
def estimate_pages_changed (differences : List (DiffRecord α))
    (doc1 doc2 : ExtractedDoc) : Nat :=
  if differences = [] then 0
  else
    let total_changes : Nat := (differences.map changedLines).sum
    let avg : ℚ := ((doc1.total_lines : ℚ) + (doc2.total_lines : ℚ)) / 2 /
      ((max (max doc1.total_pages doc2.total_pages) 1 : Nat) : ℚ)
    let estimated : Nat := (⌊(total_changes : ℚ) / max avg 1⌋).toNat + 1
    min estimated (max doc1.total_pages doc2.total_pages)

/-- DocumentComparator._calculate_statistics. -/
def calculate_statistics (doc1 doc2 : ExtractedDoc)
    (differences : List (DiffRecord α)) : Stats :=
  { total_differences := differences.length
    added_sections := differences.countP isAdded
    deleted_sections := differences.countP isDeleted
    modified_sections := differences.countP isModified
    total_added_lines := ((differences.filter isAdded).map linesLen).sum
    total_deleted_lines := ((differences.filter isDeleted).map linesLen).sum
    pages_changed := estimate_pages_changed differences doc1 doc2 }

/-! ## Claim-side definitions (phrased from the specification's words, to be
compared with the source-side definitions above) -/

/-- The per-opcode record of §4.3 of the spec: replace → modified, delete →
    deleted, insert → added, equal → nothing. -/
def classifyOpcode (lines1 lines2 : List α) (op : Opcode) : Option (DiffRecord α) :=
  match op.tag with
  | .equal => none
  | .replace => some (.modified op.i1 (pySlice lines1 op.i1 op.i2)
      (pySlice lines2 op.j1 op.j2) (get_context lines1 lines2 op.i1 op.j1))
  | .delete => some (.deleted op.i1 (pySlice lines1 op.i1 op.i2)
      (get_context lines1 lines2 op.i1 op.i1))
  | .insert => some (.added op.j1 (pySlice lines2 op.j1 op.j2)
      (get_context lines1 lines2 op.i1 op.j1))

/-- Replaying an edit script against lines1: keep lines1[i1:i2] for equal runs,
    take lines2[j1:j2] for replace and insert runs, drop delete runs. -/
def replay (lines1 lines2 : List α) : List Opcode → List α
  | [] => []
  | op :: ops =>
    (match op.tag with
     | .equal => pySlice lines1 op.i1 op.i2
     | .replace => pySlice lines2 op.j1 op.j2
     | .insert => pySlice lines2 op.j1 op.j2
     | .delete => []) ++ replay lines1 lines2 ops

/-- The opcode ranges are contiguous from (i, j) to (iend, jend): each run
    starts where the previous one ended and the last ends at the right edge —
    together they cover every index exactly once, in increasing order. -/
def Contig : Nat → Nat → Nat → Nat → List Opcode → Prop
  | i, j, iend, jend, [] => i = iend ∧ j = jend
  | i, j, iend, jend, op :: ops =>
    op.i1 = i ∧ op.j1 = j ∧ op.i1 ≤ op.i2 ∧ op.j1 ≤ op.j2 ∧
    Contig op.i2 op.j2 iend jend ops

/-- The range shape each tag implies: a run is nonempty on the side(s) it
    touches, and an equal run advances both sides by the same amount. -/
def OpShape (op : Opcode) : Prop :=
  match op.tag with
  | .replace => op.i1 < op.i2 ∧ op.j1 < op.j2
  | .delete => op.i1 < op.i2 ∧ op.j1 = op.j2
  | .insert => op.i1 = op.i2 ∧ op.j1 < op.j2
  | .equal => op.i1 < op.i2 ∧ op.j1 < op.j2 ∧ op.i2 - op.i1 = op.j2 - op.j1

/-- How a difference record is wired to the opcode it came from: its kind,
    its position field, and the two positions its context windows use. -/
def RecordWiring (lines1 lines2 : List α) (op : Opcode) : DiffRecord α → Prop
  | .modified pos _ _ c =>
    op.tag = .replace ∧ pos = op.i1 ∧ c = get_context lines1 lines2 op.i1 op.j1
  | .deleted pos _ c =>
    op.tag = .delete ∧ pos = op.i1 ∧ c = get_context lines1 lines2 op.i1 op.i1
  | .added pos _ c =>
    op.tag = .insert ∧ pos = op.j1 ∧ c = get_context lines1 lines2 op.i1 op.j1

/-- len(d.get('old_lines', [])). -/
def oldLinesLen : DiffRecord α → Nat
  | .modified _ ol _ _ => ol.length
  | _ => 0

/-- len(d.get('new_lines', [])). -/
def newLinesLen : DiffRecord α → Nat
  | .modified _ _ nl _ => nl.length
  | _ => 0

/-- The pages-changed estimate exactly as §4.4 of the spec words it. -/
def pagesChangedFormula (differences : List (DiffRecord α))
    (doc1 doc2 : ExtractedDoc) : Nat :=
  if differences = [] then 0
  else
    let changed : Nat :=
      (differences.map (fun d => linesLen d + oldLinesLen d + newLinesLen d)).sum
    let avg : ℚ := ((doc1.total_lines : ℚ) + (doc2.total_lines : ℚ)) / 2 /
      ((max (max doc1.total_pages doc2.total_pages) 1 : Nat) : ℚ)
    min ((⌊(changed : ℚ) / max avg 1⌋).toNat + 1)
      (max doc1.total_pages doc2.total_pages)

/-! ## Invariants used in the alignment proofs -/

/-- The running-best invariant of find_longest_match: either still the initial
    empty match at the window corner, or a genuine in-window match. -/
def BestInv (a b : List α) (alo ahi blo bhi : Nat) (m : MatchTriple) : Prop :=
  m = ⟨alo, blo, 0⟩ ∨
  (0 < m.size ∧ alo ≤ m.a ∧ m.a + m.size ≤ ahi ∧ blo ≤ m.b ∧ m.b + m.size ≤ bhi ∧
   ∀ t, t < m.size → a[m.a + t]? = b[m.b + t]?)

/-- The j2len-dictionary invariant: an entry k at key j records a match of
    length k ending at a[iNext-1], b[j], lying inside the window. -/
def RowOk (a b : List α) (alo blo bhi iNext : Nat) (f : Nat → Nat) : Prop :=
  ∀ j, f j ≠ 0 →
    blo ≤ j ∧ j < bhi ∧ f j ≤ j + 1 - blo ∧ f j ≤ j + 1 ∧
    f j ≤ iNext - alo ∧ f j ≤ iNext ∧
    ∀ t, t < f j → a[iNext - 1 - t]? = b[j - t]?

/-- A list of matching blocks chained inside the window [alo,ahi) x [blo,bhi):
    every block is nonempty, in order, pairwise separated, and is an actual
    match of `a` against `b`. -/
def Chain (a b : List α) : Nat → Nat → Nat → Nat → List MatchTriple → Prop
  | _, _, _, _, [] => True
  | alo, blo, ahi, bhi, m :: ms =>
    0 < m.size ∧ alo ≤ m.a ∧ blo ≤ m.b ∧ m.a + m.size ≤ ahi ∧ m.b + m.size ≤ bhi ∧
    (∀ t, t < m.size → a[m.a + t]? = b[m.b + t]?) ∧
    Chain a b (m.a + m.size) (m.b + m.size) ahi bhi ms

end SeqMatcher

structure DocInfo where
  total_pages : Nat
  total_lines : Nat
  total_chars : Nat
deriving DecidableEq, Repr

structure ComparisonResult where
  document1 : DocInfo
  document2 : DocInfo
  differences : List (DiffRecord Str)
  statistics : Stats
  similarity_ratio : ℚ
deriving DecidableEq, Repr

def docInfo (d : ExtractedDoc) : DocInfo :=
  ⟨d.total_pages, d.total_lines, d.total_chars⟩

/-- DocumentComparator.compare_documents: extract both documents (failures
    propagate), split each full text into lines, align, classify, aggregate. -/
def compare_documents (pdf1 pdf2 : PdfFile) : Except Str ComparisonResult :=
  match extract_text pdf1 with
  | .error e => .error e
  | .ok doc1 =>
    match extract_text pdf2 with
    | .error e => .error e
    | .ok doc2 =>
      let lines1 := pySplit '\n' doc1.full_text
      let lines2 := pySplit '\n' doc2.full_text
      let ops := get_opcodes lines1 lines2
      let differences := get_differences lines1 lines2 ops
      .ok { document1 := docInfo doc1
            document2 := docInfo doc2
            differences := differences
            statistics := calculate_statistics doc1 doc2 differences
            similarity_ratio := ratio lines1 lines2 }

/-! ## Theorems -/

set_option maxRecDepth 16000

theorem pySplit_ne_nil (sep : Char) (s : Str) : pySplit sep s ≠ [] := by
  induction s with
  | nil => simp [pySplit]
  | cons c cs ih =>
    rw [pySplit]
    split
    · simp
    · split <;> simp

theorem extractPages_all_empty (n : Nat) (ps : List (Option Str))
    (h : ∀ p ∈ ps, p = none ∨ p = some []) : extractPages n ps = ([], []) := by
  induction ps generalizing n with
  | nil => rfl
  | cons p ps ih =>
    rcases h p (by simp) with h1 | h1 <;> subst h1 <;>
      simp [extractPages, ih (n + 1) (fun q hq => h q (by simp [hq]))]

/-- C10: every successful extraction satisfies the ExtractedDocument invariant
    (total_lines counts the '\n'-split segments of full_text, total_chars its
    length, hence total_lines ≥ 1), and a PDF none of whose pages yields
    extractable text produces full_text = "", total_lines = 1, total_chars = 0,
    an empty pages list, and total_pages counting all pages. -/
theorem c10_extracted_document_invariant :
    ∀ (pdf : PdfFile) (d : ExtractedDoc), extract_text pdf = .ok d →
      (d.total_lines = (pySplit '\n' d.full_text).length ∧
       d.total_chars = d.full_text.length ∧ 1 ≤ d.total_lines) ∧
      ∀ pages, pdf = .ok pages → (∀ p ∈ pages, p = none ∨ p = some []) →
        d.full_text = [] ∧ d.total_lines = 1 ∧ d.total_chars = 0 ∧
        d.pages = [] ∧ d.total_pages = pages.length := by
  intro pdf d h
  cases pdf with
  | corrupt msg => exact absurd h (by simp [extract_text])
  | ok pages =>
    simp only [extract_text, Except.ok.injEq] at h
    subst h
    refine ⟨⟨rfl, rfl, ?_⟩, ?_⟩
    · exact List.length_pos.mpr (pySplit_ne_nil '\n' _)
    · intro pages' hp hall
      injection hp with hp
      subst hp
      simp [extractPages_all_empty 1 pages hall, pyJoin, pySplit]

theorem c10_witness :
    extract_text (.ok [some "  hola  mundo ".toList, none, some "".toList]) =
      .ok { full_text := "hola mundo".toList
            pages := [⟨1, "hola mundo".toList, ["hola mundo".toList]⟩]
            total_pages := 3, total_lines := 1, total_chars := 10 } ∧
    (1 = (pySplit '\n' "hola mundo".toList).length ∧
     10 = "hola mundo".toList.length ∧ 1 ≤ 1) ∧
    extract_text (.ok [none, some []]) =
      .ok { full_text := [], pages := [], total_pages := 2,
            total_lines := 1, total_chars := 0 } := by
  have h1 : extract_text (.ok [some "  hola  mundo ".toList, none, some "".toList]) =
      .ok { full_text := "hola mundo".toList
            pages := [⟨1, "hola mundo".toList, ["hola mundo".toList]⟩]
            total_pages := 3, total_lines := 1, total_chars := 10 } := by rfl
  have h2 : extract_text (.ok [none, some []]) =
      .ok { full_text := [], pages := [], total_pages := 2,
            total_lines := 1, total_chars := 0 } := by rfl
  exact ⟨h1, (c10_extracted_document_invariant _ _ h1).1, h2⟩

/-- C9: the comparison yields a result precisely when both extractions
    succeed; an extraction failure propagates unchanged, carrying the
    underlying cause message. -/
theorem c9_error_atomicity :
    ∀ p1 p2 : PdfFile,
      (∀ e, extract_text p1 = .error e → compare_documents p1 p2 = .error e) ∧
      (∀ d1 e, extract_text p1 = .ok d1 → extract_text p2 = .error e →
        compare_documents p1 p2 = .error e) ∧
      ((∃ r, compare_documents p1 p2 = .ok r) ↔
        (∃ d1, extract_text p1 = .ok d1) ∧ ∃ d2, extract_text p2 = .ok d2) ∧
      ∀ msg, extract_text (.corrupt msg) =
        .error ("Error al procesar PDF: ".toList ++ msg) := by
  intro p1 p2
  refine ⟨?_, ?_, ?_, fun _ => rfl⟩ <;>
    unfold compare_documents <;>
    cases h1 : extract_text p1 <;> cases h2 : extract_text p2 <;> simp

theorem c9_witness :
    compare_documents (.corrupt "x".toList) (.ok []) =
      .error ("Error al procesar PDF: ".toList ++ "x".toList) ∧
    ∃ r, compare_documents (.ok []) (.ok []) = .ok r := by
  refine ⟨(c9_error_atomicity (.corrupt "x".toList) (.ok [])).1 _ rfl, ?_⟩
  exact ((c9_error_atomicity (.ok []) (.ok [])).2.2.1).mpr
    ⟨⟨_, rfl⟩, ⟨_, rfl⟩⟩

section AlignProofs

variable {α : Type}

theorem eqSome_iff [DecidableEq α] {o1 o2 : Option α} :
    eqSome o1 o2 = true ↔ ∃ x, o1 = some x ∧ o2 = some x := by
  cases o1 with
  | none => simp [eqSome]
  | some x =>
    cases o2 with
    | none => simp [eqSome]
    | some y =>
      simp only [eqSome, decide_eq_true_eq, Option.some.injEq]
      constructor
      · rintro rfl; exact ⟨x, rfl, rfl⟩
      · rintro ⟨z, rfl, rfl⟩; rfl

theorem innerLoop_ok {a b : List α} {alo ahi blo bhi i : Nat} {x : α}
    (hax : a[i]? = some x) (hialo : alo ≤ i) (hiahi : i < ahi)
    {js : List Nat} (hjs : ∀ j ∈ js, b[j]? = some x)
    {fOld : Nat → Nat} (hfOld : RowOk a b alo blo bhi i fOld) :
    ∀ {nw : Nat → Nat} {best : MatchTriple},
    RowOk a b alo blo bhi (i + 1) nw →
    BestInv a b alo ahi blo bhi best →
    RowOk a b alo blo bhi (i + 1) (innerLoop i blo bhi fOld js nw best).1 ∧
    BestInv a b alo ahi blo bhi (innerLoop i blo bhi fOld js nw best).2 := by
  induction js with
  | nil => intro nw best hnw hbest; exact ⟨hnw, hbest⟩
  | cons j js ih =>
    intro nw best hnw hbest
    have hjs' : ∀ j' ∈ js, b[j']? = some x :=
      fun j' hj' => hjs j' (List.mem_cons_of_mem _ hj')
    rw [innerLoop]
    by_cases h1 : j < blo
    · simp only [if_pos h1]
      exact ih hjs' hnw hbest
    · simp only [if_neg h1]
      by_cases h2 : bhi ≤ j
      · simp only [if_pos h2]
        exact ⟨hnw, hbest⟩
      · simp only [if_neg h2]
        push_neg at h1 h2
        have hbj : b[j]? = some x := hjs j (List.mem_cons_self _ _)
        -- facts about the new chain length k
        have hk : ∀ t, t < (if j = 0 then 0 else fOld (j - 1)) + 1 →
            a[i - t]? = b[j - t]? := by
          intro t ht
          match t with
          | 0 => simpa using hax.trans hbj.symm
          | Nat.succ s =>
            have hne : ¬ j = 0 := by
              intro hj0
              rw [if_pos hj0] at ht
              omega
            rw [if_neg hne] at ht
            have hv : fOld (j - 1) ≠ 0 := by omega
            obtain ⟨_, _, _, _, _, _, hm⟩ := hfOld (j - 1) hv
            have e1 : i - (s + 1) = i - 1 - s := by omega
            have e2 : j - (s + 1) = j - 1 - s := by omega
            rw [e1, e2]
            exact hm s (by omega)
        have hkb : (if j = 0 then 0 else fOld (j - 1)) + 1 ≤ j + 1 - blo ∧
            (if j = 0 then 0 else fOld (j - 1)) + 1 ≤ j + 1 ∧
            (if j = 0 then 0 else fOld (j - 1)) + 1 ≤ i + 1 - alo ∧
            (if j = 0 then 0 else fOld (j - 1)) + 1 ≤ i + 1 := by
          by_cases hj0 : j = 0
          · rw [if_pos hj0]; omega
          · rw [if_neg hj0]
            by_cases hv : fOld (j - 1) = 0
            · rw [hv]; omega
            · obtain ⟨hb1, hb2, hb3, hb4, hb5, hb6, _⟩ := hfOld (j - 1) hv
              omega
        refine ih hjs' ?_ ?_
        · -- the extended new row dictionary still satisfies RowOk at i+1
          intro j' hj'
          by_cases hjj : j' = j
          · subst hjj
            simp only [if_pos rfl] at hj' ⊢
            refine ⟨h1, h2, hkb.1, hkb.2.1, ?_, ?_, ?_⟩
            · simpa using hkb.2.2.1
            · simpa using hkb.2.2.2
            · intro t ht
              have e : i + 1 - 1 - t = i - t := by omega
              rw [e]
              exact hk t ht
          · simp only [if_neg hjj] at hj' ⊢
            exact hnw j' hj'
        · -- the updated best still satisfies BestInv
          by_cases hlt : best.size < (if j = 0 then 0 else fOld (j - 1)) + 1
          · simp only [if_pos hlt]
            right
            obtain ⟨hkb1, hkb2, hkb3, hkb4⟩ := hkb
            refine ⟨?_, ?_, ?_, ?_, ?_, ?_⟩
            · show 0 < (if j = 0 then 0 else fOld (j - 1)) + 1
              omega
            · show alo ≤ i + 1 - ((if j = 0 then 0 else fOld (j - 1)) + 1)
              omega
            · show i + 1 - ((if j = 0 then 0 else fOld (j - 1)) + 1) +
                  ((if j = 0 then 0 else fOld (j - 1)) + 1) ≤ ahi
              omega
            · show blo ≤ j + 1 - ((if j = 0 then 0 else fOld (j - 1)) + 1)
              omega
            · show j + 1 - ((if j = 0 then 0 else fOld (j - 1)) + 1) +
                  ((if j = 0 then 0 else fOld (j - 1)) + 1) ≤ bhi
              omega
            · show ∀ t, t < (if j = 0 then 0 else fOld (j - 1)) + 1 → _
              intro t ht
              show a[i + 1 - ((if j = 0 then 0 else fOld (j - 1)) + 1) + t]? =
                  b[j + 1 - ((if j = 0 then 0 else fOld (j - 1)) + 1) + t]?
              have e1 : i + 1 - ((if j = 0 then 0 else fOld (j - 1)) + 1) + t =
                  i - ((if j = 0 then 0 else fOld (j - 1)) - t) := by omega
              have e2 : j + 1 - ((if j = 0 then 0 else fOld (j - 1)) + 1) + t =
                  j - ((if j = 0 then 0 else fOld (j - 1)) - t) := by omega
              rw [e1, e2]
              exact hk _ (by omega)
          · simp only [if_neg hlt]
            exact hbest

theorem rowOk_zero {a b : List α} {alo blo bhi iNext : Nat} :
    RowOk a b alo blo bhi iNext (fun _ => 0) := by
  intro j hj
  simp at hj

theorem dpLoop_ok {a b : List α} {b2jf : α → List Nat} {alo ahi blo bhi : Nat}
    (hb2jf : ∀ x j, j ∈ b2jf x → b[j]? = some x) :
    ∀ (n i0 : Nat) (f : Nat → Nat) (best : MatchTriple),
      alo ≤ i0 → n ≤ ahi - i0 →
      RowOk a b alo blo bhi i0 f →
      BestInv a b alo ahi blo bhi best →
      BestInv a b alo ahi blo bhi
        (dpLoop a b2jf blo bhi (List.range' i0 n) f best).2 := by
  intro n
  induction n with
  | zero =>
    intro i0 f best _ _ _ hbest
    exact hbest
  | succ n ih =>
    intro i0 f best hi0 hn hf hbest
    rw [List.range'_succ, dpLoop]
    cases hax : a[i0]? with
    | none =>
      exact ih (i0 + 1) _ _ (by omega) (by omega) rowOk_zero hbest
    | some x =>
      have hstep := innerLoop_ok hax hi0 (by omega)
        (fun j hj => hb2jf x j hj) hf
        (rowOk_zero : RowOk a b alo blo bhi (i0 + 1) fun _ => 0) hbest
      exact ih (i0 + 1) _ _ (by omega) (by omega) hstep.1 hstep.2

theorem extendBack_bestInv [DecidableEq α] {a b : List α} {alo ahi blo bhi : Nat} :
    ∀ (fuel : Nat) (m : MatchTriple), BestInv a b alo ahi blo bhi m →
      BestInv a b alo ahi blo bhi (extendBack a b alo blo fuel m) := by
  intro fuel
  induction fuel with
  | zero => intro m h; exact h
  | succ fuel ih =>
    intro m h
    rw [extendBack]
    by_cases hc : alo < m.a ∧ blo < m.b ∧ eqSome a[m.a - 1]? b[m.b - 1]? = true
    · rw [if_pos hc]
      apply ih
      obtain ⟨hc1, hc2, hc3⟩ := hc
      rcases eqSome_iff.mp hc3 with ⟨y, hay, hby⟩
      rcases h with h | ⟨hs, h1, h2, h3, h4, hm⟩
      · rw [h] at hc1
        exact absurd hc1 (lt_irrefl alo)
      · right
        refine ⟨?_, ?_, ?_, ?_, ?_, ?_⟩
        · show 0 < m.size + 1
          omega
        · show alo ≤ m.a - 1
          omega
        · show m.a - 1 + (m.size + 1) ≤ ahi
          omega
        · show blo ≤ m.b - 1
          omega
        · show m.b - 1 + (m.size + 1) ≤ bhi
          omega
        · intro t ht
          show a[m.a - 1 + t]? = b[m.b - 1 + t]?
          match t with
          | 0 => simpa using hay.trans hby.symm
          | Nat.succ s =>
            have e1 : m.a - 1 + (s + 1) = m.a + s := by omega
            have e2 : m.b - 1 + (s + 1) = m.b + s := by omega
            rw [e1, e2]
            refine hm s ?_
            have ht' : s + 1 < m.size + 1 := ht
            omega
    · rw [if_neg hc]
      exact h

theorem extendFwd_bestInv [DecidableEq α] {a b : List α} {alo ahi blo bhi : Nat} :
    ∀ (fuel : Nat) (m : MatchTriple), BestInv a b alo ahi blo bhi m →
      BestInv a b alo ahi blo bhi (extendFwd a b ahi bhi fuel m) := by
  intro fuel
  induction fuel with
  | zero => intro m h; exact h
  | succ fuel ih =>
    intro m h
    rw [extendFwd]
    by_cases hc : m.a + m.size < ahi ∧ m.b + m.size < bhi ∧
        eqSome a[m.a + m.size]? b[m.b + m.size]? = true
    · rw [if_pos hc]
      apply ih
      obtain ⟨hc1, hc2, hc3⟩ := hc
      rcases eqSome_iff.mp hc3 with ⟨y, hay, hby⟩
      have hmt : ∀ t, t < m.size → a[m.a + t]? = b[m.b + t]? := by
        rcases h with h | ⟨_, _, _, _, _, hm⟩
        · intro t ht
          rw [h] at ht
          exact absurd (show t < 0 from ht) (by omega)
        · exact hm
      have hbounds : alo ≤ m.a ∧ blo ≤ m.b := by
        rcases h with h | ⟨_, h1, _, h3, _, _⟩
        · rw [h]
          exact ⟨le_refl _, le_refl _⟩
        · exact ⟨h1, h3⟩
      right
      refine ⟨?_, ?_, ?_, ?_, ?_, ?_⟩
      · show 0 < m.size + 1
        omega
      · show alo ≤ m.a
        exact hbounds.1
      · show m.a + (m.size + 1) ≤ ahi
        omega
      · show blo ≤ m.b
        exact hbounds.2
      · show m.b + (m.size + 1) ≤ bhi
        omega
      · intro t ht
        show a[m.a + t]? = b[m.b + t]?
        have ht' : t < m.size + 1 := ht
        by_cases hts : t = m.size
        · subst hts
          exact hay.trans hby.symm
        · exact hmt t (by omega)
    · rw [if_neg hc]
      exact h

theorem flm_bestInv [DecidableEq α] {a b : List α} {b2jf : α → List Nat}
    (hb2jf : ∀ x j, j ∈ b2jf x → b[j]? = some x) (alo ahi blo bhi : Nat) :
    BestInv a b alo ahi blo bhi (findLongestMatch a b b2jf alo ahi blo bhi) := by
  unfold findLongestMatch
  apply extendFwd_bestInv
  apply extendBack_bestInv
  exact dpLoop_ok hb2jf (ahi - alo) alo _ _ (le_refl _) (le_refl _)
    rowOk_zero (Or.inl rfl)

theorem chain_mono {a b : List α} :
    ∀ {ms : List MatchTriple} {alo blo ahi bhi alo' blo' ahi' bhi' : Nat},
      Chain a b alo blo ahi bhi ms → alo' ≤ alo → blo' ≤ blo → ahi ≤ ahi' →
      bhi ≤ bhi' → Chain a b alo' blo' ahi' bhi' ms := by
  intro ms
  induction ms with
  | nil => intro _ _ _ _ _ _ _ _ _ _ _ _ _; trivial
  | cons m ms ih =>
    intro alo blo ahi bhi alo' blo' ahi' bhi' h ha hb hc hd
    obtain ⟨h1, h2, h3, h4, h5, h6, h7⟩ := h
    exact ⟨h1, by omega, by omega, by omega, by omega, h6,
      ih h7 (le_refl _) (le_refl _) hc hd⟩

theorem chain_append {a b : List α} :
    ∀ {xs ys : List MatchTriple} {alo blo am bm ahi bhi : Nat},
      Chain a b alo blo am bm xs → Chain a b am bm ahi bhi ys →
      am ≤ ahi → bm ≤ bhi → alo ≤ am → blo ≤ bm →
      Chain a b alo blo ahi bhi (xs ++ ys) := by
  intro xs
  induction xs with
  | nil =>
    intro ys alo blo am bm ahi bhi _ hys _ _ halo hblo
    exact chain_mono hys halo hblo (le_refl _) (le_refl _)
  | cons m xs ih =>
    intro ys alo blo am bm ahi bhi hxs hys ham hbm halo hblo
    obtain ⟨h1, h2, h3, h4, h5, h6, h7⟩ := hxs
    exact ⟨h1, h2, h3, by omega, by omega, h6, ih h7 hys ham hbm h4 h5⟩

theorem mbGo_chain [DecidableEq α] {a b : List α} {b2jf : α → List Nat}
    (hb2jf : ∀ x j, j ∈ b2jf x → b[j]? = some x) :
    ∀ (fuel alo ahi blo bhi : Nat),
      Chain a b alo blo ahi bhi (mbGo a b b2jf fuel alo ahi blo bhi) := by
  intro fuel
  induction fuel with
  | zero => intro _ _ _ _; trivial
  | succ fuel ih =>
    intro alo ahi blo bhi
    rw [mbGo]
    by_cases hz : (findLongestMatch a b b2jf alo ahi blo bhi).size = 0
    · rw [if_pos hz]; trivial
    · rw [if_neg hz]
      have hb := @flm_bestInv α _ a b b2jf hb2jf alo ahi blo bhi
      set m := findLongestMatch a b b2jf alo ahi blo bhi with hmdef
      rcases hb with h | ⟨hs, h1, h2, h3, h4, hmatch⟩
      · rw [h] at hz; simp at hz
      · have hmid : Chain a b m.a m.b ahi bhi
            (m :: (if m.a + m.size < ahi ∧ m.b + m.size < bhi then
              mbGo a b b2jf fuel (m.a + m.size) ahi (m.b + m.size) bhi else [])) := by
          refine ⟨hs, le_refl _, le_refl _, h2, h4, hmatch, ?_⟩
          by_cases hr : m.a + m.size < ahi ∧ m.b + m.size < bhi
          · rw [if_pos hr]; exact ih _ _ _ _
          · rw [if_neg hr]; trivial
        by_cases hl : alo < m.a ∧ blo < m.b
        · rw [if_pos hl, List.append_assoc]
          exact chain_append (ih alo m.a blo m.b) hmid (by omega) (by omega)
            (by omega) (by omega)
        · rw [if_neg hl]
          simp only [List.nil_append]
          exact chain_mono hmid h1 h3 (le_refl _) (le_refl _)

theorem nonAdjacent_chain {a b : List α} :
    ∀ (ms : List MatchTriple) (cur : MatchTriple) (alo blo ahi bhi : Nat),
      alo ≤ cur.a → blo ≤ cur.b → cur.a + cur.size ≤ ahi → cur.b + cur.size ≤ bhi →
      (∀ t, t < cur.size → a[cur.a + t]? = b[cur.b + t]?) →
      Chain a b (cur.a + cur.size) (cur.b + cur.size) ahi bhi ms →
      Chain a b alo blo ahi bhi (nonAdjacent cur ms) := by
  intro ms
  induction ms with
  | nil =>
    intro cur alo blo ahi bhi h1 h2 h3 h4 hm _
    rw [nonAdjacent]
    by_cases hz : cur.size ≠ 0
    · rw [if_pos hz]
      exact ⟨by omega, h1, h2, h3, h4, hm, trivial⟩
    · rw [if_neg hz]; trivial
  | cons m ms ih =>
    intro cur alo blo ahi bhi h1 h2 h3 h4 hm hch
    obtain ⟨hs, hma, hmb, hm2, hm4, hmm, hcht⟩ := hch
    rw [nonAdjacent]
    by_cases hadj : cur.a + cur.size = m.a ∧ cur.b + cur.size = m.b
    · rw [if_pos hadj]
      apply ih ⟨cur.a, cur.b, cur.size + m.size⟩ alo blo ahi bhi h1 h2
      · show cur.a + (cur.size + m.size) ≤ ahi
        omega
      · show cur.b + (cur.size + m.size) ≤ bhi
        omega
      · intro t ht
        have ht' : t < cur.size + m.size := ht
        show a[cur.a + t]? = b[cur.b + t]?
        by_cases htc : t < cur.size
        · exact hm t htc
        · have e1 : cur.a + t = m.a + (t - cur.size) := by omega
          have e2 : cur.b + t = m.b + (t - cur.size) := by omega
          rw [e1, e2]
          exact hmm _ (by omega)
      · show Chain a b (cur.a + (cur.size + m.size)) (cur.b + (cur.size + m.size))
            ahi bhi ms
        rw [show cur.a + (cur.size + m.size) = m.a + m.size from by omega,
          show cur.b + (cur.size + m.size) = m.b + m.size from by omega]
        exact hcht
    · rw [if_neg hadj]
      by_cases hz : cur.size ≠ 0
      · rw [if_pos hz]
        refine ⟨by omega, h1, h2, h3, h4, hm, ?_⟩
        exact ih m (cur.a + cur.size) (cur.b + cur.size) ahi bhi hma hmb hm2 hm4
          hmm hcht
      · rw [if_neg hz]
        push_neg at hz
        exact ih m alo blo ahi bhi (by omega) (by omega) hm2 hm4 hmm hcht

theorem nonAdjacent_sizeSum :
    ∀ (ms : List MatchTriple) (cur : MatchTriple),
      ((nonAdjacent cur ms).map MatchTriple.size).sum =
        cur.size + (ms.map MatchTriple.size).sum := by
  intro ms
  induction ms with
  | nil =>
    intro cur
    rw [nonAdjacent]
    by_cases hz : cur.size ≠ 0
    · rw [if_pos hz]; simp
    · rw [if_neg hz]
      push_neg at hz
      simp [hz]
  | cons m ms ih =>
    intro cur
    rw [nonAdjacent]
    by_cases hadj : cur.a + cur.size = m.a ∧ cur.b + cur.size = m.b
    · rw [if_pos hadj, ih]
      have e : (⟨cur.a, cur.b, cur.size + m.size⟩ : MatchTriple).size =
          cur.size + m.size := rfl
      rw [e]
      simp only [List.map_cons, List.sum_cons]
      omega
    · rw [if_neg hadj]
      by_cases hz : cur.size ≠ 0
      · rw [if_pos hz]
        simp only [List.map_cons, List.sum_cons, ih]
      · rw [if_neg hz]
        push_neg at hz
        rw [ih]
        simp only [List.map_cons, List.sum_cons]
        omega

theorem chain_sizeSum_le {a b : List α} :
    ∀ {ms : List MatchTriple} {alo blo ahi bhi : Nat},
      Chain a b alo blo ahi bhi ms →
      (ms.map MatchTriple.size).sum ≤ ahi - alo ∧
      (ms.map MatchTriple.size).sum ≤ bhi - blo := by
  intro ms
  induction ms with
  | nil => intro _ _ _ _ _; simp
  | cons m ms ih =>
    intro alo blo ahi bhi h
    obtain ⟨hs, h1, h2, h3, h4, _, ht⟩ := h
    have := ih ht
    simp only [List.map_cons, List.sum_cons]
    omega

theorem chain_full {a b : List α} :
    ∀ {ms : List MatchTriple} {alo blo ahi bhi : Nat},
      Chain a b alo blo ahi bhi ms →
      (ms.map MatchTriple.size).sum = ahi - alo →
      (ms.map MatchTriple.size).sum = bhi - blo →
      ∀ t, t < ahi - alo → a[alo + t]? = b[blo + t]? := by
  intro ms
  induction ms with
  | nil =>
    intro alo blo ahi bhi _ h1 _ t ht
    rw [← h1] at ht
    simp at ht
  | cons m ms ih =>
    intro alo blo ahi bhi hch hs1 hs2 t ht
    obtain ⟨hms, h1, h2, h3, h4, hmm, hct⟩ := hch
    have hrest := chain_sizeSum_le hct
    simp only [List.map_cons, List.sum_cons] at hs1 hs2
    have hma : m.a = alo := by omega
    have hmb : m.b = blo := by omega
    by_cases htm : t < m.size
    · have := hmm t htm
      rw [hma, hmb] at this
      exact this
    · have hres := ih hct (by omega) (by omega) (t - m.size) (by omega)
      have e1 : m.a + m.size + (t - m.size) = alo + t := by omega
      have e2 : m.b + m.size + (t - m.size) = blo + t := by omega
      rw [e1, e2] at hres
      exact hres

theorem pySlice_getElem? (l : List α) (i j t : Nat) :
    (pySlice l i j)[t]? = if t < j - i then l[i + t]? else none := by
  unfold pySlice
  rw [List.getElem?_take]
  by_cases h : t < j - i
  · rw [if_pos h, if_pos h, List.getElem?_drop]
  · rw [if_neg h, if_neg h]

theorem pySlice_append (l : List α) {i k m : Nat} (h1 : i ≤ k) (h2 : k ≤ m) :
    pySlice l i k ++ pySlice l k m = pySlice l i m := by
  unfold pySlice
  have h : (l.drop i).take (m - i) =
      (l.drop i).take (k - i) ++ ((l.drop i).drop (k - i)).take (m - k) := by
    rw [show m - i = (k - i) + (m - k) from by omega]
    exact List.take_add _ _ _
  rw [h, List.drop_drop, show i + (k - i) = k from by omega]

theorem pySlice_eq_of_matches {a b : List α} {i j s : Nat}
    (hm : ∀ t, t < s → a[i + t]? = b[j + t]?) :
    pySlice a i (i + s) = pySlice b j (j + s) := by
  apply List.ext_getElem?
  intro t
  rw [pySlice_getElem?, pySlice_getElem?, Nat.add_sub_cancel_left,
    Nat.add_sub_cancel_left]
  by_cases h : t < s
  · rw [if_pos h, if_pos h]
    exact hm t h
  · rw [if_neg h, if_neg h]

theorem b2j_sound [DecidableEq α] (b : List α) (x : α) :
    ∀ j ∈ b2j b x, b[j]? = some x := by
  intro j hj
  simp only [b2j] at hj
  split at hj
  · simp at hj
  · unfold indicesOf at hj
    rw [List.mem_filter] at hj
    exact of_decide_eq_true hj.2

theorem b2j_complete [DecidableEq α] {b : List α} {x : α} {j : Nat}
    (hb : b.length < 200) (hj : b[j]? = some x) : j ∈ b2j b x := by
  have hlt : j < b.length := (List.getElem?_eq_some.mp hj).1
  unfold b2j
  rw [if_neg (fun h => absurd h.1 (by omega))]
  unfold indicesOf
  rw [List.mem_filter]
  exact ⟨List.mem_range.mpr hlt, decide_eq_true hj⟩

theorem merged_chain [DecidableEq α] (a b : List α) :
    Chain a b 0 0 a.length b.length
      (nonAdjacent ⟨0, 0, 0⟩
        (mbGo a b (b2j b) (a.length + b.length + 1) 0 a.length 0 b.length)) := by
  apply nonAdjacent_chain
  · exact le_refl _
  · exact le_refl _
  · exact Nat.zero_le _
  · exact Nat.zero_le _
  · intro t ht
    exact absurd (show t < 0 from ht) (by omega)
  · exact mbGo_chain (b2j_sound b) _ _ _ _ _

theorem replay_append (l1 l2 : List α) (xs ys : List Opcode) :
    replay l1 l2 (xs ++ ys) = replay l1 l2 xs ++ replay l1 l2 ys := by
  induction xs with
  | nil => rfl
  | cons op xs ih => simp [replay, ih]

theorem opcodesLoop_nil_eq (i j : Nat) :
    opcodesLoop i j ([] : List MatchTriple) = [] := rfl

theorem opcodesLoop_replay {a b : List α} :
    ∀ (ms : List MatchTriple) (i j : Nat),
      Chain a b i j a.length b.length ms → i ≤ a.length → j ≤ b.length →
      replay a b (opcodesLoop i j (ms ++ [⟨a.length, b.length, 0⟩])) =
        pySlice b j b.length := by
  intro ms
  induction ms with
  | nil =>
    intro i j _ hi hj
    simp only [List.nil_append, opcodesLoop]
    rw [if_neg (show ¬ ((0 : Nat) ≠ 0) from by simp)]
    simp only [opcodesLoop_nil_eq, List.append_nil]
    by_cases hg1 : i < a.length ∧ j < b.length
    · rw [if_pos hg1]
      simp [replay]
    · rw [if_neg hg1]
      by_cases hg2 : i < a.length
      · rw [if_pos hg2]
        have hjb : j = b.length := by
          rcases not_and_or.mp hg1 with h | h
          · exact absurd hg2 h
          · omega
        subst hjb
        simp [replay, pySlice]
      · rw [if_neg hg2]
        by_cases hg3 : j < b.length
        · rw [if_pos hg3]
          simp [replay]
        · rw [if_neg hg3]
          have hjb : j = b.length := by omega
          subst hjb
          simp [replay, pySlice]
  | cons m ms ih =>
    intro i j hch hi hj
    obtain ⟨hs, h1, h2, h3, h4, hmm, hct⟩ := hch
    have hIH := ih (m.a + m.size) (m.b + m.size) hct (by omega) (by omega)
    simp only [List.cons_append, opcodesLoop, List.append_eq]
    rw [if_pos (show m.size ≠ 0 from by omega)]
    rw [replay_append, replay_append]
    have heq : replay a b [⟨Tag.equal, m.a, m.a + m.size, m.b, m.b + m.size⟩] =
        pySlice b m.b (m.b + m.size) := by
      show pySlice a m.a (m.a + m.size) ++ [] = pySlice b m.b (m.b + m.size)
      rw [List.append_nil]
      exact pySlice_eq_of_matches hmm
    rw [heq, hIH]
    have hassemble : pySlice b j m.b ++ pySlice b m.b (m.b + m.size) ++
        pySlice b (m.b + m.size) b.length = pySlice b j b.length := by
      rw [List.append_assoc, pySlice_append b (by omega) (by omega),
        pySlice_append b (by omega) (by omega)]
    by_cases hg1 : i < m.a ∧ j < m.b
    · rw [if_pos hg1,
        show replay a b [(⟨Tag.replace, i, m.a, j, m.b⟩ : Opcode)] =
          pySlice b j m.b from by simp [replay]]
      exact hassemble
    · rw [if_neg hg1]
      by_cases hg2 : i < m.a
      · rw [if_pos hg2,
          show replay a b [(⟨Tag.delete, i, m.a, j, m.b⟩ : Opcode)] =
            ([] : List α) from by simp [replay]]
        have hjb : j = m.b := by
          rcases not_and_or.mp hg1 with h | h
          · exact absurd hg2 h
          · omega
        subst hjb
        rw [show pySlice b m.b m.b = ([] : List α) from by simp [pySlice],
          List.nil_append] at hassemble
        rw [List.nil_append]
        exact hassemble
      · rw [if_neg hg2]
        by_cases hg3 : j < m.b
        · rw [if_pos hg3,
            show replay a b [(⟨Tag.insert, i, m.a, j, m.b⟩ : Opcode)] =
              pySlice b j m.b from by simp [replay]]
          exact hassemble
        · rw [if_neg hg3]
          have hjb : j = m.b := by omega
          subst hjb
          rw [show replay a b ([] : List Opcode) = ([] : List α) from rfl,
            List.nil_append]
          rw [show pySlice b m.b m.b = ([] : List α) from by simp [pySlice],
            List.nil_append] at hassemble
          exact hassemble

theorem opcodesLoop_contig {a b : List α} :
    ∀ (ms : List MatchTriple) (i j : Nat),
      Chain a b i j a.length b.length ms → i ≤ a.length → j ≤ b.length →
      Contig i j a.length b.length
        (opcodesLoop i j (ms ++ [⟨a.length, b.length, 0⟩])) ∧
      ∀ op ∈ opcodesLoop i j (ms ++ [⟨a.length, b.length, 0⟩]), OpShape op := by
  intro ms
  induction ms with
  | nil =>
    intro i j _ hi hj
    simp only [List.nil_append, opcodesLoop]
    rw [if_neg (show ¬ ((0 : Nat) ≠ 0) from by simp)]
    simp only [opcodesLoop_nil_eq, List.append_nil]
    by_cases hg1 : i < a.length ∧ j < b.length
    · rw [if_pos hg1]
      refine ⟨⟨rfl, rfl, show i ≤ a.length by omega, show j ≤ b.length by omega,
        rfl, rfl⟩, ?_⟩
      intro op hop
      rw [List.mem_singleton] at hop
      subst hop
      exact ⟨hg1.1, hg1.2⟩
    · rw [if_neg hg1]
      by_cases hg2 : i < a.length
      · rw [if_pos hg2]
        have hjb : j = b.length := by
          rcases not_and_or.mp hg1 with h | h
          · exact absurd hg2 h
          · omega
        subst hjb
        refine ⟨⟨rfl, rfl, show i ≤ a.length by omega,
          show b.length ≤ b.length by omega, rfl, rfl⟩, ?_⟩
        intro op hop
        rw [List.mem_singleton] at hop
        subst hop
        exact ⟨hg2, rfl⟩
      · rw [if_neg hg2]
        by_cases hg3 : j < b.length
        · rw [if_pos hg3]
          have hia : i = a.length := by omega
          subst hia
          refine ⟨⟨rfl, rfl, show a.length ≤ a.length by omega,
            show j ≤ b.length by omega, rfl, rfl⟩, ?_⟩
          intro op hop
          rw [List.mem_singleton] at hop
          subst hop
          exact ⟨rfl, hg3⟩
        · rw [if_neg hg3]
          exact ⟨⟨by omega, by omega⟩, fun op hop => absurd hop (by simp)⟩
  | cons m ms ih =>
    intro i j hch hi hj
    obtain ⟨hs, h1, h2, h3, h4, hmm, hct⟩ := hch
    have hIH := ih (m.a + m.size) (m.b + m.size) hct (by omega) (by omega)
    simp only [List.cons_append, opcodesLoop, List.append_eq]
    rw [if_pos (show m.size ≠ 0 from by omega)]
    have heqshape : OpShape (⟨Tag.equal, m.a, m.a + m.size, m.b, m.b + m.size⟩ :
        Opcode) := ⟨show m.a < m.a + m.size by omega,
          show m.b < m.b + m.size by omega,
          show m.a + m.size - m.a = m.b + m.size - m.b by omega⟩
    by_cases hg1 : i < m.a ∧ j < m.b
    · rw [if_pos hg1]
      refine ⟨⟨rfl, rfl, show i ≤ m.a by omega, show j ≤ m.b by omega, rfl, rfl,
        show m.a ≤ m.a + m.size by omega, show m.b ≤ m.b + m.size by omega,
        hIH.1⟩, ?_⟩
      intro op hop
      simp only [List.append_eq, List.cons_append, List.nil_append, List.mem_cons] at hop
      rcases hop with rfl | rfl | hop
      · exact ⟨hg1.1, hg1.2⟩
      · exact heqshape
      · exact hIH.2 op hop
    · rw [if_neg hg1]
      by_cases hg2 : i < m.a
      · rw [if_pos hg2]
        have hjb : j = m.b := by
          rcases not_and_or.mp hg1 with h | h
          · exact absurd hg2 h
          · omega
        subst hjb
        refine ⟨⟨rfl, rfl, show i ≤ m.a by omega, show m.b ≤ m.b by omega,
          rfl, rfl, show m.a ≤ m.a + m.size by omega,
          show m.b ≤ m.b + m.size by omega, hIH.1⟩, ?_⟩
        intro op hop
        simp only [List.append_eq, List.cons_append, List.nil_append, List.mem_cons] at hop
        rcases hop with rfl | rfl | hop
        · exact ⟨hg2, rfl⟩
        · exact heqshape
        · exact hIH.2 op hop
      · rw [if_neg hg2]
        have hia : i = m.a := by omega
        subst hia
        by_cases hg3 : j < m.b
        · rw [if_pos hg3]
          refine ⟨⟨rfl, rfl, show m.a ≤ m.a by omega, show j ≤ m.b by omega,
            rfl, rfl, show m.a ≤ m.a + m.size by omega,
            show m.b ≤ m.b + m.size by omega, hIH.1⟩, ?_⟩
          intro op hop
          simp only [List.append_eq, List.cons_append, List.nil_append, List.mem_cons] at hop
          rcases hop with rfl | rfl | hop
          · exact ⟨rfl, hg3⟩
          · exact heqshape
          · exact hIH.2 op hop
        · rw [if_neg hg3]
          have hjb : j = m.b := by omega
          subst hjb
          refine ⟨⟨rfl, rfl, show m.a ≤ m.a + m.size by omega,
            show m.b ≤ m.b + m.size by omega, hIH.1⟩, ?_⟩
          intro op hop
          simp only [List.append_eq, List.nil_append, List.cons_append, List.mem_cons] at hop
          rcases hop with rfl | hop
          · exact heqshape
          · exact hIH.2 op hop

theorem innerLoop_size_le {i blo bhi : Nat} {f : Nat → Nat} :
    ∀ (js : List Nat) (nw : Nat → Nat) (best : MatchTriple),
      best.size ≤ (innerLoop i blo bhi f js nw best).2.size := by
  intro js
  induction js with
  | nil => intro nw best; exact le_refl _
  | cons j js ih =>
    intro nw best
    rw [innerLoop]
    by_cases h1 : j < blo
    · rw [if_pos h1]; exact ih nw best
    · rw [if_neg h1]
      by_cases h2 : bhi ≤ j
      · rw [if_pos h2]
      · rw [if_neg h2]
        refine le_trans ?_ (ih _ _)
        by_cases h3 : best.size < (if j = 0 then 0 else f (j - 1)) + 1
        · rw [if_pos h3]
          show best.size ≤ (if j = 0 then 0 else f (j - 1)) + 1
          omega
        · rw [if_neg h3]

theorem innerLoop_reaches {i blo bhi : Nat} {f : Nat → Nat} {j0 : Nat}
    (hblo : blo ≤ j0) (hbhi0 : j0 < bhi) :
    ∀ (js : List Nat) (nw : Nat → Nat) (best : MatchTriple),
      j0 ∈ js → (∀ j ∈ js, j < bhi) →
      (if j0 = 0 then 0 else f (j0 - 1)) + 1 ≤
        (innerLoop i blo bhi f js nw best).2.size := by
  intro js
  induction js with
  | nil => intro nw best h _; simp at h
  | cons j js ih =>
    intro nw best hmem hlt
    rw [innerLoop]
    rcases List.mem_cons.mp hmem with rfl | hmem'
    · rw [if_neg (show ¬ j0 < blo from by omega),
        if_neg (show ¬ bhi ≤ j0 from by omega)]
      refine le_trans ?_ (innerLoop_size_le js _ _)
      by_cases h3 : best.size < (if j0 = 0 then 0 else f (j0 - 1)) + 1
      · rw [if_pos h3]
      · rw [if_neg h3]
        omega
    · by_cases h1 : j < blo
      · rw [if_pos h1]
        exact ih _ _ hmem' (fun j' hj' => hlt j' (List.mem_cons_of_mem _ hj'))
      · rw [if_neg h1,
          if_neg (show ¬ bhi ≤ j from by
            have := hlt j (List.mem_cons_self _ _); omega)]
        exact ih _ _ hmem' (fun j' hj' => hlt j' (List.mem_cons_of_mem _ hj'))

theorem innerLoop_get {i blo bhi : Nat} {f : Nat → Nat} (hblo : blo = 0) :
    ∀ (js : List Nat) (nw : Nat → Nat) (best : MatchTriple) (j0 : Nat),
      (∀ j ∈ js, j < bhi) →
      (innerLoop i blo bhi f js nw best).1 j0 =
        if j0 ∈ js then (if j0 = 0 then 0 else f (j0 - 1)) + 1 else nw j0 := by
  intro js
  induction js with
  | nil =>
    intro nw best j0 _
    rw [if_neg (List.not_mem_nil j0)]
    rfl
  | cons j js ih =>
    intro nw best j0 hlt
    rw [innerLoop, if_neg (show ¬ j < blo from by omega),
      if_neg (show ¬ bhi ≤ j from by
        have := hlt j (List.mem_cons_self _ _); omega)]
    rw [ih _ _ j0 (fun j' hj' => hlt j' (List.mem_cons_of_mem _ hj'))]
    by_cases hj0 : j0 ∈ js
    · rw [if_pos hj0, if_pos (List.mem_cons_of_mem _ hj0)]
    · rw [if_neg hj0]
      by_cases hjj : j0 = j
      · subst hjj
        simp
      · simp only [if_neg hjj]
        rw [if_neg (by
          intro h
          rcases List.mem_cons.mp h with h' | h'
          · exact hjj h'
          · exact hj0 h')]

theorem dpLoop_size_le {a : List α} {b2jf : α → List Nat} {blo bhi : Nat} :
    ∀ (rows : List Nat) (f : Nat → Nat) (best : MatchTriple),
      best.size ≤ (dpLoop a b2jf blo bhi rows f best).2.size := by
  intro rows
  induction rows with
  | nil => intro f best; exact le_refl _
  | cons r rows ih =>
    intro f best
    rw [dpLoop]
    exact le_trans (innerLoop_size_le _ _ _) (ih _ _)

theorem dpLoop_hit {a : List α} {b2jf : α → List Nat} {blo bhi : Nat}
    {x : α} {i j0 : Nat} (hai : a[i]? = some x) (hj0 : j0 ∈ b2jf x)
    (hblo : blo ≤ j0) (hj0b : j0 < bhi) (hb2 : ∀ j ∈ b2jf x, j < bhi) :
    ∀ (rows : List Nat) (f : Nat → Nat) (best : MatchTriple), i ∈ rows →
      1 ≤ (dpLoop a b2jf blo bhi rows f best).2.size := by
  intro rows
  induction rows with
  | nil => intro f best h; simp at h
  | cons r rows ih =>
    intro f best hmem
    rw [dpLoop]
    rcases List.mem_cons.mp hmem with rfl | hmem'
    · rw [hai]
      refine le_trans ?_ (dpLoop_size_le _ _ _)
      refine le_trans (by omega) (innerLoop_reaches hblo hj0b _ _ _ hj0 hb2)
    · exact ih _ _ hmem'

theorem extendBack_size_le [DecidableEq α] {a b : List α} {alo blo : Nat} :
    ∀ (fuel : Nat) (m : MatchTriple),
      m.size ≤ (extendBack a b alo blo fuel m).size := by
  intro fuel
  induction fuel with
  | zero => intro m; exact le_refl _
  | succ fuel ih =>
    intro m
    rw [extendBack]
    split
    · exact le_trans (show m.size ≤ m.size + 1 from by omega)
        (ih ⟨m.a - 1, m.b - 1, m.size + 1⟩)
    · exact le_refl _

theorem extendFwd_size_le [DecidableEq α] {a b : List α} {ahi bhi : Nat} :
    ∀ (fuel : Nat) (m : MatchTriple),
      m.size ≤ (extendFwd a b ahi bhi fuel m).size := by
  intro fuel
  induction fuel with
  | zero => intro m; exact le_refl _
  | succ fuel ih =>
    intro m
    rw [extendFwd]
    split
    · exact le_trans (show m.size ≤ m.size + 1 from by omega)
        (ih ⟨m.a, m.b, m.size + 1⟩)
    · exact le_refl _

theorem b2j_lt [DecidableEq α] (b : List α) (x : α) :
    ∀ j ∈ b2j b x, j < b.length := by
  intro j hj
  exact (List.getElem?_eq_some.mp (b2j_sound b x j hj)).1

theorem flm_pos [DecidableEq α] {a b : List α} {x : α} {i j : Nat}
    (hb : b.length < 200) (hai : a[i]? = some x) (hbj : b[j]? = some x) :
    1 ≤ (findLongestMatch a b (b2j b) 0 a.length 0 b.length).size := by
  unfold findLongestMatch
  refine le_trans ?_ (extendFwd_size_le _ _)
  refine le_trans ?_ (extendBack_size_le _ _)
  have hi : i < a.length := (List.getElem?_eq_some.mp hai).1
  have hj' : j < b.length := (List.getElem?_eq_some.mp hbj).1
  refine dpLoop_hit hai (b2j_complete hb hbj) (Nat.zero_le _) hj' (b2j_lt b x)
    _ _ _ ?_
  rw [List.mem_range'_1]
  exact ⟨Nat.zero_le _, by omega⟩

theorem dpLoop_diag [DecidableEq α] {b : List α} (hb : b.length < 200) :
    ∀ (k i0 : Nat) (f : Nat → Nat) (best : MatchTriple),
      1 ≤ k → i0 + k = b.length → (i0 ≠ 0 → f (i0 - 1) = i0) →
      b.length ≤
        (dpLoop b (b2j b) 0 b.length (List.range' i0 k) f best).2.size := by
  intro k
  induction k with
  | zero => intro i0 f best h; omega
  | succ k ih =>
    intro i0 f best _ hik hf
    have hi0 : i0 < b.length := by omega
    obtain ⟨x, hx⟩ : ∃ x, b[i0]? = some x :=
      ⟨b[i0], List.getElem?_eq_getElem hi0⟩
    have hmem : i0 ∈ b2j b x := b2j_complete hb hx
    rw [List.range'_succ, dpLoop, hx]
    by_cases hk : k = 0
    · subst hk
      have hn : i0 + 1 = b.length := by omega
      refine le_trans ?_ (dpLoop_size_le _ _ _)
      refine le_trans ?_
        (innerLoop_reaches (Nat.zero_le i0) hi0 _ _ _ hmem (b2j_lt b x))
      by_cases hz : i0 = 0
      · rw [if_pos hz]; omega
      · rw [if_neg hz, hf hz]; omega
    · refine ih (i0 + 1) _ _ (by omega) (by omega) ?_
      intro _
      simp only [Nat.add_sub_cancel]
      rw [innerLoop_get rfl _ _ _ _ (b2j_lt b x), if_pos hmem]
      by_cases hz : i0 = 0
      · rw [if_pos hz, hz]
      · rw [if_neg hz, hf hz]

theorem flm_self [DecidableEq α] {b : List α} (hb : b.length < 200) :
    findLongestMatch b b (b2j b) 0 b.length 0 b.length = ⟨0, 0, b.length⟩ := by
  have hinv := @dpLoop_ok α b b (b2j b) 0 b.length 0 b.length (b2j_sound b)
    (b.length - 0) 0 (fun _ => 0) ⟨0, 0, 0⟩ (le_refl 0) (le_refl _) rowOk_zero
    (Or.inl rfl)
  have hbest : (dpLoop b (b2j b) 0 b.length (List.range' 0 (b.length - 0))
      (fun _ => 0) ⟨0, 0, 0⟩).2 = ⟨0, 0, b.length⟩ := by
    by_cases hn : b.length = 0
    · rw [show b.length - 0 = 0 from by omega]
      rw [show List.range' 0 0 = ([] : List Nat) from rfl, dpLoop]
      rw [show (⟨0, 0, 0⟩ : MatchTriple) = ⟨0, 0, b.length⟩ from by rw [hn]]
    · have hge := dpLoop_diag hb (b.length - 0) 0 (fun _ => 0) ⟨0, 0, 0⟩
        (by omega) (by omega) (by omega)
      rcases hinv with h | ⟨hs, h1, h2, h3, h4, _⟩
      · rw [h] at hge
        exact absurd (show b.length ≤ 0 from hge) (by omega)
      · have ha : (dpLoop b (b2j b) 0 b.length (List.range' 0 (b.length - 0))
            (fun _ => 0) ⟨0, 0, 0⟩).2.a = 0 := by omega
        have hbb : (dpLoop b (b2j b) 0 b.length (List.range' 0 (b.length - 0))
            (fun _ => 0) ⟨0, 0, 0⟩).2.b = 0 := by omega
        have hsz : (dpLoop b (b2j b) 0 b.length (List.range' 0 (b.length - 0))
            (fun _ => 0) ⟨0, 0, 0⟩).2.size = b.length := by omega
        calc (dpLoop b (b2j b) 0 b.length (List.range' 0 (b.length - 0))
            (fun _ => 0) ⟨0, 0, 0⟩).2
            = ⟨(dpLoop b (b2j b) 0 b.length (List.range' 0 (b.length - 0))
                (fun _ => 0) ⟨0, 0, 0⟩).2.a,
               (dpLoop b (b2j b) 0 b.length (List.range' 0 (b.length - 0))
                (fun _ => 0) ⟨0, 0, 0⟩).2.b,
               (dpLoop b (b2j b) 0 b.length (List.range' 0 (b.length - 0))
                (fun _ => 0) ⟨0, 0, 0⟩).2.size⟩ := rfl
          _ = ⟨0, 0, b.length⟩ := by rw [ha, hbb, hsz]
  show extendFwd b b b.length b.length b.length
      (extendBack b b 0 0
        (dpLoop b (b2j b) 0 b.length (List.range' 0 (b.length - 0))
          (fun _ => 0) ⟨0, 0, 0⟩).2.a
        (dpLoop b (b2j b) 0 b.length (List.range' 0 (b.length - 0))
          (fun _ => 0) ⟨0, 0, 0⟩).2) = ⟨0, 0, b.length⟩
  rw [hbest]
  cases hfuel : b.length with
  | zero => rfl
  | succ k =>
    show extendFwd b b (k + 1) (k + 1) (k + 1) ⟨0, 0, k + 1⟩ = ⟨0, 0, k + 1⟩
    rw [extendFwd, if_neg (by
      intro h
      have h1 : 0 + (k + 1) < k + 1 := h.1
      omega)]

theorem matchesTotal_eq [DecidableEq α] (a b : List α) :
    matchesTotal a b =
      ((mbGo a b (b2j b) (a.length + b.length + 1) 0 a.length 0 b.length).map
        MatchTriple.size).sum := by
  unfold matchesTotal get_matching_blocks
  rw [List.map_append, List.sum_append, nonAdjacent_sizeSum]
  simp

theorem matchesTotal_le [DecidableEq α] (a b : List α) :
    matchesTotal a b ≤ a.length ∧ matchesTotal a b ≤ b.length := by
  have h := chain_sizeSum_le (merged_chain a b)
  unfold matchesTotal get_matching_blocks
  rw [List.map_append, List.sum_append]
  simpa using h

theorem matchesTotal_pos [DecidableEq α] {a b : List α}
    (h : 1 ≤ (findLongestMatch a b (b2j b) 0 a.length 0 b.length).size) :
    1 ≤ matchesTotal a b := by
  rw [matchesTotal_eq, mbGo]
  rw [if_neg (by omega)]
  simp only [List.map_append, List.sum_append, List.map_cons, List.sum_cons]
  omega

theorem matchesTotal_self [DecidableEq α] {b : List α} (hb : b.length < 200) :
    matchesTotal b b = b.length := by
  rw [matchesTotal_eq]
  by_cases hn : b.length = 0
  · cases hfuel : b.length + b.length + 1 with
    | zero => omega
    | succ fuel =>
      rw [mbGo, flm_self hb]
      rw [if_pos (show (⟨0, 0, b.length⟩ : MatchTriple).size = 0 from hn)]
      simp [hn]
  · cases hfuel : b.length + b.length + 1 with
    | zero => omega
    | succ fuel =>
      rw [mbGo, flm_self hb]
      rw [if_neg (show ¬ (⟨0, 0, b.length⟩ : MatchTriple).size = 0 from hn)]
      rw [if_neg (show ¬ (0 < (⟨0, 0, b.length⟩ : MatchTriple).a ∧
        0 < (⟨0, 0, b.length⟩ : MatchTriple).b) from by
          intro h
          exact absurd (show (0 : Nat) < 0 from h.1) (by omega))]
      rw [if_neg (show ¬ ((⟨0, 0, b.length⟩ : MatchTriple).a +
          (⟨0, 0, b.length⟩ : MatchTriple).size < b.length ∧
          (⟨0, 0, b.length⟩ : MatchTriple).b +
          (⟨0, 0, b.length⟩ : MatchTriple).size < b.length) from by
          intro h
          exact absurd (show 0 + b.length < b.length from h.1) (by omega))]
      simp

theorem chain_head_shared {a b : List α} :
    ∀ {ms : List MatchTriple} {alo blo ahi bhi : Nat},
      Chain a b alo blo ahi bhi ms → ahi ≤ a.length →
      1 ≤ (ms.map MatchTriple.size).sum → ∃ x, x ∈ a ∧ x ∈ b := by
  intro ms
  induction ms with
  | nil =>
    intro alo blo ahi bhi _ _ h
    simp at h
  | cons m ms _ =>
    intro alo blo ahi bhi hch hla _
    obtain ⟨hs, _, _, h2, _, hmm, _⟩ := hch
    have hma : m.a < a.length := by omega
    obtain ⟨v, hv⟩ : ∃ v, a[m.a]? = some v :=
      ⟨a[m.a], List.getElem?_eq_getElem hma⟩
    have hbv : b[m.b]? = some v := by
      have := hmm 0 (by omega)
      simp only [Nat.add_zero] at this
      rw [← this]
      exact hv
    exact ⟨v, List.getElem?_mem hv, List.getElem?_mem hbv⟩

end AlignProofs

/-- C3: replaying the opcodes against document 1's lines — keeping lines1
    slices for equal runs, substituting lines2 slices for replace runs,
    inserting lines2 slices for insert runs, dropping delete runs —
    reconstructs document 2's lines exactly. -/
theorem c3_reconstruction (A B : List Str) :
    replay A B (get_opcodes A B) = B := by
  unfold get_opcodes get_matching_blocks
  rw [opcodesLoop_replay _ 0 0 (merged_chain A B) (Nat.zero_le _) (Nat.zero_le _)]
  simp [pySlice]

/-- C4: the opcodes partition [0, len A) and [0, len B) completely and
    contiguously, in increasing order, each run nonempty on the side(s) its
    tag touches. -/
theorem c4_partition (A B : List Str) :
    Contig 0 0 A.length B.length (get_opcodes A B) ∧
    ∀ op ∈ get_opcodes A B, OpShape op := by
  unfold get_opcodes get_matching_blocks
  exact opcodesLoop_contig _ 0 0 (merged_chain A B) (Nat.zero_le _) (Nat.zero_le _)

theorem c4_witness :
    Contig 0 0 1 2 (get_opcodes ["a".toList] ["a".toList, "b".toList]) ∧
    OpShape (⟨Tag.insert, 1, 1, 1, 2⟩ : Opcode) := by
  refine ⟨(c4_partition ["a".toList] ["a".toList, "b".toList]).1, ?_⟩
  exact (c4_partition ["a".toList] ["a".toList, "b".toList]).2
    ⟨Tag.insert, 1, 1, 1, 2⟩ (by decide)

/-- C2 (counterexample to the claim as stated): with difflib's default
    autojunk heuristic, an element filling more than 1% of a second sequence
    of length ≥ 200 is never matched by the dynamic-programming pass, so the
    two sequences below share the line "x" yet get similarity ratio 0.0. -/
theorem c2_counterexample :
    ratio ["x".toList] ("y".toList :: List.replicate 199 "x".toList) = 0 ∧
    "x".toList ∈ ["x".toList] ∧
    "x".toList ∈ ("y".toList :: List.replicate 199 "x".toList) := by
  refine ⟨?_, by decide, ?_⟩
  · have hM : matchesTotal ["x".toList]
        ("y".toList :: List.replicate 199 "x".toList) = 0 := by decide
    rw [ratio, if_neg (by decide), hM]
    norm_num
  · exact List.mem_cons_of_mem _ (List.mem_replicate.mpr ⟨by norm_num, rfl⟩)

/-- C2 (amended): for line sequences whose second member has fewer than 200
    lines (so difflib's autojunk heuristic is inert), the ratio is 2M/T
    whenever T = len(A)+len(B) is nonzero, lies in [0,1], equals 1.0 iff
    A = B, and — when the sequences are not both empty — equals 0.0 iff A and
    B share no equal line. -/
theorem c2_similarity_ratio (A B : List Str) (hB : B.length < 200) :
    (A.length + B.length ≠ 0 →
      ratio A B = 2 * (matchesTotal A B : ℚ) /
        ((A.length : ℚ) + (B.length : ℚ))) ∧
    0 ≤ ratio A B ∧ ratio A B ≤ 1 ∧
    (ratio A B = 1 ↔ A = B) ∧
    (A.length + B.length ≠ 0 →
      (ratio A B = 0 ↔ ¬ ∃ x, x ∈ A ∧ x ∈ B)) := by
  have hMle := matchesTotal_le A B
  have hT : ((A.length : ℚ) + (B.length : ℚ)) = ((A.length + B.length : Nat) : ℚ) := by
    push_cast
    ring
  refine ⟨?_, ?_, ?_, ?_, ?_⟩
  · intro h
    rw [ratio, if_neg h]
  · rw [ratio]
    split
    · norm_num
    · positivity
  · rw [ratio]
    split
    · norm_num
    · rw [div_le_one (by rw [hT]; exact_mod_cast Nat.pos_of_ne_zero (by assumption))]
      rw [hT]
      exact_mod_cast by omega
  · constructor
    · intro h1
      rw [ratio] at h1
      by_cases hz : A.length + B.length = 0
      · have hA : A = [] := List.length_eq_zero.mp (by omega)
        have hB' : B = [] := List.length_eq_zero.mp (by omega)
        rw [hA, hB']
      · rw [if_neg hz] at h1
        have h2M : 2 * matchesTotal A B = A.length + B.length := by
          have := (div_eq_one_iff_eq (by
            rw [hT]
            exact_mod_cast Nat.pos_of_ne_zero hz |>.ne')).mp h1
          exact_mod_cast this.trans hT
        have hMA : matchesTotal A B = A.length := by omega
        have hMB : matchesTotal A B = B.length := by omega
        have hfull := chain_full (merged_chain A B)
        have hsum : ((nonAdjacent ⟨0, 0, 0⟩ (mbGo A B (b2j B)
            (A.length + B.length + 1) 0 A.length 0 B.length)).map
              MatchTriple.size).sum = matchesTotal A B := by
          unfold matchesTotal get_matching_blocks
          rw [List.map_append, List.sum_append]
          simp
        apply List.ext_getElem?
        intro n
        by_cases hn : n < A.length
        · have := hfull (by rw [hsum]; omega) (by rw [hsum]; omega) n (by omega)
          simpa using this
        · rw [List.getElem?_eq_none (by omega), List.getElem?_eq_none (by omega)]
    · intro h
      subst h
      rw [ratio]
      split
      · rfl
      · rw [matchesTotal_self hB, hT]
        rw [div_eq_one_iff_eq (by
          exact_mod_cast Nat.pos_of_ne_zero (by assumption) |>.ne')]
        push_cast
        ring
  · intro hz
    rw [ratio, if_neg hz]
    constructor
    · intro h0 hshared
      obtain ⟨x, hxA, hxB⟩ := hshared
      obtain ⟨i, hi⟩ := List.getElem?_of_mem hxA
      obtain ⟨j, hj⟩ := List.getElem?_of_mem hxB
      have hpos := matchesTotal_pos (flm_pos hB hi hj)
      rw [div_eq_zero_iff] at h0
      rcases h0 with h0 | h0
      · have : (matchesTotal A B : ℚ) = 0 := by linarith
        have : matchesTotal A B = 0 := by exact_mod_cast this
        omega
      · rw [hT] at h0
        have : A.length + B.length = 0 := by exact_mod_cast h0
        exact hz this
    · intro hno
      have hM0 : matchesTotal A B = 0 := by
        by_contra hM
        have h1 : 1 ≤ ((nonAdjacent ⟨0, 0, 0⟩ (mbGo A B (b2j B)
            (A.length + B.length + 1) 0 A.length 0 B.length)).map
              MatchTriple.size).sum := by
          unfold matchesTotal get_matching_blocks at hM
          rw [List.map_append, List.sum_append] at hM
          simp at hM
          omega
        exact hno (chain_head_shared (merged_chain A B) (le_refl _) h1)
      rw [hM0]
      norm_num

theorem c2_witness :
    0 ≤ ratio ["a".toList] ["b".toList] ∧
    ratio ["a".toList] ["b".toList] ≤ 1 ∧
    (ratio ["a".toList] ["b".toList] = 1 ↔
      (["a".toList] : List Str) = ["b".toList]) := by
  have h := c2_similarity_ratio ["a".toList] ["b".toList] (by decide)
  exact ⟨h.2.1, h.2.2.1, h.2.2.2.1⟩

theorem get_differences_eq_filterMap {α : Type} (lines1 lines2 : List α)
    (ops : List Opcode) :
    get_differences lines1 lines2 ops = ops.filterMap (classifyOpcode lines1 lines2) := by
  induction ops with
  | nil => rfl
  | cons op ops ih =>
    cases htag : op.tag <;>
      simp [get_differences, classifyOpcode, htag, ih]

/-- C5: classification produces exactly one record per non-equal opcode and
    none for equal opcodes, in opcode order, with the kind, position and line
    slices the claim states. -/
theorem c5_classification (lines1 lines2 : List Str) (ops : List Opcode) :
    get_differences lines1 lines2 ops = ops.filterMap (classifyOpcode lines1 lines2) ∧
    (get_differences lines1 lines2 ops).length =
      (ops.filter (fun op => decide (op.tag ≠ Tag.equal))).length := by
  refine ⟨get_differences_eq_filterMap lines1 lines2 ops, ?_⟩
  induction ops with
  | nil => rfl
  | cons op ops ih =>
    cases htag : op.tag <;>
      simp [get_differences, htag, ih, List.filter_cons]

/-- C6: every record's context consists of the four radius-3 windows at
    pos1 = i1 and pos2 = j1 (i1 for deletions); each window has at most three
    lines and a change at line 0 gets empty before-windows. -/
theorem c6_context_windows :
    (∀ (l1 l2 : List Str) (p1 p2 : Nat),
      get_context l1 l2 p1 p2 =
        ⟨pySlice l1 (p1 - 3) p1, pySlice l1 p1 (min l1.length (p1 + 3)),
         pySlice l2 (p2 - 3) p2, pySlice l2 p2 (min l2.length (p2 + 3))⟩ ∧
      (get_context l1 l2 p1 p2).before_doc1.length ≤ 3 ∧
      (get_context l1 l2 p1 p2).after_doc1.length ≤ 3 ∧
      (get_context l1 l2 p1 p2).before_doc2.length ≤ 3 ∧
      (get_context l1 l2 p1 p2).after_doc2.length ≤ 3 ∧
      (p1 = 0 → (get_context l1 l2 p1 p2).before_doc1 = []) ∧
      (p2 = 0 → (get_context l1 l2 p1 p2).before_doc2 = [])) ∧
    ∀ (l1 l2 : List Str) (ops : List Opcode) (r : DiffRecord Str),
      r ∈ get_differences l1 l2 ops → ∃ op ∈ ops, RecordWiring l1 l2 op r := by
  constructor
  · intro l1 l2 p1 p2
    refine ⟨rfl, ?_, ?_, ?_, ?_, ?_, ?_⟩
    · exact le_trans (List.length_take_le _ _) (by omega)
    · exact le_trans (List.length_take_le _ _) (by omega)
    · exact le_trans (List.length_take_le _ _) (by omega)
    · exact le_trans (List.length_take_le _ _) (by omega)
    · intro h; subst h; simp [get_context, pySlice]
    · intro h; subst h; simp [get_context, pySlice]
  · intro l1 l2 ops r hr
    rw [get_differences_eq_filterMap] at hr
    rcases List.mem_filterMap.mp hr with ⟨op, hop, hcl⟩
    refine ⟨op, hop, ?_⟩
    cases htag : op.tag <;> simp [classifyOpcode, htag] at hcl <;>
      simp [← hcl, RecordWiring, htag]

/-- C1 (evaluation at the claim's input): because `re.sub(r'\s+', ' ', text)`
    also replaces newlines, the cleaned output of "  Art   1  \n\n\n Art 2 "
    is the single line "Art 1 Art 2", not the claimed "Art 1\n\nArt 2" —
    the per-line stripping and blank-line collapsing the code's own comments
    announce operate on a text that no longer contains any newline. -/
theorem c1_clean_text_eval :
    clean_text "  Art   1  \n\n\n Art 2 ".toList = "Art 1 Art 2".toList ∧
    clean_text "  Art   1  \n\n\n Art 2 ".toList ≠ "Art 1\n\nArt 2".toList := by
  constructor <;> decide

/-- C7: the pages-changed estimate is 0 for an empty difference list and
    otherwise equals the claimed formula (modified records counting both their
    old and new lines), clamped to the larger page count. -/
theorem c7_pages_changed (diffs : List (DiffRecord Str)) (d1 d2 : ExtractedDoc) :
    estimate_pages_changed diffs d1 d2 = pagesChangedFormula diffs d1 d2 ∧
    (diffs = [] → estimate_pages_changed diffs d1 d2 = 0) ∧
    (diffs ≠ [] →
      estimate_pages_changed diffs d1 d2 ≤ max d1.total_pages d2.total_pages) := by
  have hsum : (diffs.map changedLines).sum =
      (diffs.map (fun d => linesLen d + oldLinesLen d + newLinesLen d)).sum := by
    induction diffs with
    | nil => rfl
    | cons d ds ih =>
      cases d <;> simp [changedLines, linesLen, oldLinesLen, newLinesLen, ih]
  refine ⟨?_, ?_, ?_⟩
  · unfold estimate_pages_changed pagesChangedFormula
    rw [hsum]
  · intro h
    simp [estimate_pages_changed, h]
  · intro h
    simp only [estimate_pages_changed, if_neg h]
    exact min_le_right _ _

theorem c7_witness :
    ([] : List (DiffRecord Str)) = [] ∧
    estimate_pages_changed ([] : List (DiffRecord Str))
      ⟨[], [], 1, 1, 0⟩ ⟨[], [], 1, 1, 0⟩ = 0 ∧
    ([(.added 0 ["x".toList] ⟨[], [], [], []⟩ : DiffRecord Str)] ≠ [] ∧
     estimate_pages_changed [(.added 0 ["x".toList] ⟨[], [], [], []⟩ : DiffRecord Str)]
        ⟨[], [], 1, 1, 0⟩ ⟨[], [], 1, 1, 0⟩ ≤ max 1 1) := by
  refine ⟨rfl, (c7_pages_changed [] ⟨[], [], 1, 1, 0⟩ ⟨[], [], 1, 1, 0⟩).2.1 rfl,
    by simp, ?_⟩
  exact (c7_pages_changed [(.added 0 ["x".toList] ⟨[], [], [], []⟩ : DiffRecord Str)]
    ⟨[], [], 1, 1, 0⟩ ⟨[], [], 1, 1, 0⟩).2.2 (by simp)

/-- C8: the section counts tally the records of each kind, and the added /
    deleted line totals sum only over records of that kind — appending a
    modified record changes neither total. -/
theorem c8_statistics (d1 d2 : ExtractedDoc) (diffs : List (DiffRecord Str)) :
    (calculate_statistics d1 d2 diffs).added_sections = (diffs.filter isAdded).length ∧
    (calculate_statistics d1 d2 diffs).deleted_sections = (diffs.filter isDeleted).length ∧
    (calculate_statistics d1 d2 diffs).modified_sections = (diffs.filter isModified).length ∧
    (calculate_statistics d1 d2 diffs).total_added_lines =
      ((diffs.filter isAdded).map linesLen).sum ∧
    (calculate_statistics d1 d2 diffs).total_deleted_lines =
      ((diffs.filter isDeleted).map linesLen).sum ∧
    (calculate_statistics d1 d2 diffs).total_differences = diffs.length ∧
    ∀ (pos : Nat) (ol nl : List Str) (c : Context Str),
      (calculate_statistics d1 d2 (diffs ++ [.modified pos ol nl c])).total_added_lines =
        (calculate_statistics d1 d2 diffs).total_added_lines ∧
      (calculate_statistics d1 d2 (diffs ++ [.modified pos ol nl c])).total_deleted_lines =
        (calculate_statistics d1 d2 diffs).total_deleted_lines := by
  refine ⟨List.countP_eq_length_filter _ _, List.countP_eq_length_filter _ _,
    List.countP_eq_length_filter _ _, rfl, rfl, rfl, ?_⟩
  intro pos ol nl c
  constructor <;>
    simp [calculate_statistics, List.filter_append, isAdded, isDeleted]

theorem c6_witness :
    ((get_context ([] : List Str) ["x".toList] 0 0).before_doc1 = [] ∧
     (get_context ([] : List Str) ["x".toList] 0 0).before_doc2 = []) ∧
    ∃ op ∈ [(⟨Tag.insert, 0, 0, 0, 1⟩ : Opcode)],
      RecordWiring ([] : List Str) ["x".toList] op
        (.added 0 (pySlice ["x".toList] 0 1)
          (get_context ([] : List Str) ["x".toList] 0 0)) := by
  refine ⟨⟨(c6_context_windows.1 [] ["x".toList] 0 0).2.2.2.2.2.1 rfl,
           (c6_context_windows.1 [] ["x".toList] 0 0).2.2.2.2.2.2 rfl⟩, ?_⟩
  exact c6_context_windows.2 [] ["x".toList] [⟨Tag.insert, 0, 0, 0, 1⟩] _ (by decide)

end PDFComparator
